import Mathlib

/-!
Verification of the `ExpFamily` exponential-family base class
(`hyperion/pdfs/core/exp_family.py`) and of the PLDA S-Norm scoring script
(`egs/sre21-av-a/v1.16k/steps_be/eval-be-plda-snorm-v1.py`).

Numpy float arrays are modelled as lists of rationals (`Vec`), exact
arithmetic standing in for floating point.  A numpy matrix of shape
`(n, d)` is a list of `n` rows, each a `Vec` of length `d`.  Python code
that can raise on some input is modelled with `Option`.
-/

namespace Hyperion

/-- A 1-D numpy array of floats, modelled with exact rationals. -/
abbrev Vec := List ℚ

/-- Elementwise sum of two vectors (numpy broadcast `+`). -/
def vadd (a b : Vec) : Vec := List.zipWith (· + ·) a b

/-- Scalar times vector (one row of the broadcast `w[:, None] * u_x`). -/
def smul (c : ℚ) (v : Vec) : Vec := v.map (fun a => c * a)

/-- `np.zeros(d)`; also the value of `np.sum(-, axis=0)` on a `(0, d)` array. -/
def zeros (d : ℕ) : Vec := List.replicate d 0

/-- `np.sum(u_x, axis=0)` for an `(n, d)` array: column-wise sum of the rows. -/
def colSum (d : ℕ) (L : List Vec) : Vec := L.foldl vadd (zeros d)

/-- `u_x * sample_weights[:, None]`: scale row `i` by weight `i`. -/
def scaleRows (w : List ℚ) (L : List Vec) : List Vec := List.zipWith smul w L

/-- `np.inner` of two 1-D arrays. -/
def npInner (a b : Vec) : ℚ := (List.zipWith (· * ·) a b).sum

/-- The `ExpFamily` object: the natural parameter `eta` and log-normalizer `A`
held by the base class, together with the overridable hooks — the per-sample
sufficient statistic (`compute_suff_stats`, the identity in the base class),
the per-sample `logh` (constantly `0` in the base class), the abstract
`Mstep` parameter update of a concrete subclass, and the subclass
standard-parameter likelihood `eval_llk_std`. -/
structure ExpFamily where
  eta : Vec
  A : ℚ
  suffStats : Vec → Vec
  logh : Vec → ℚ
  mstep : ℚ → Vec → Vec × ℚ
  evalLlkStd : List Vec → List ℚ

/-- `ExpFamily.compute_suff_stats` applied to a whole matrix; the base class
returns `x` itself (per-row identity). -/
def compute_suff_stats (m : ExpFamily) (x : List Vec) : List Vec :=
  x.map m.suffStats

/-- `ExpFamily.accum_logh`: total (optionally sample-weighted) `logh` over a
batch. -/
def accum_logh (m : ExpFamily) (x : List Vec) (sw : Option (List ℚ)) : ℚ :=
  match sw with
  | none => (x.map m.logh).sum
  | some w => (List.zipWith (fun wi r => wi * m.logh r) w x).sum

/-- `ExpFamily._accum_suff_stats_1batch`: one-pass accumulation.  With sample
weights the statistics buffer is scaled row-wise (in place in the source) and
`N` is the total weight; without, `N` is the number of rows of the buffer. -/
def accum_suff_stats_1batch (m : ExpFamily) (d : ℕ) (x : List Vec)
    (ux : Option (List Vec)) (sw : Option (List ℚ)) : ℚ × Vec :=
  match sw with
  | none => (((ux.getD (compute_suff_stats m x)).length : ℚ),
             colSum d (ux.getD (compute_suff_stats m x)))
  | some w => (w.sum, colSum d (scaleRows w (ux.getD (compute_suff_stats m x))))

/-- Contents of the array bound to `u_x` inside `_accum_suff_stats_1batch`
after the call returns: the in-place `u_x *= sample_weights[:, None]` scales
it whenever sample weights are given.  When `u_x=None` and the base-class
`compute_suff_stats` (which returns `x` itself) is in effect, this buffer is
the caller's array `x`; when a precomputed `u_x` is passed it is that array. -/
def accum1_buffer_after (u : List Vec) (sw : Option (List ℚ)) : List Vec :=
  match sw with
  | none => u
  | some w => scaleRows w u

/-- Loop of `ExpFamily._accum_suff_stats_nbatches`: walk the rows in
contiguous chunks of `b` rows (`b ≥ 1` for the source's `xrange` step),
folding each chunk through `_accum_suff_stats_1batch` into a running pair
that is only initialized on the first iteration (`if i1 == 0`).  A final
`none` models the `UnboundLocalError` raised when the loop never runs. -/
def accum_nbatches_go (m : ExpFamily) (d b : ℕ) :
    List Vec → Option (List ℚ) → Option (ℚ × Vec) → Option (ℚ × Vec)
  | [], _, acc => acc
  | h :: t, sw, acc =>
    accum_nbatches_go m d b (t.drop (b - 1)) (sw.map (List.drop b))
      (match acc with
       | none => some (accum_suff_stats_1batch m d (h :: t.take (b - 1)) none
           (sw.map (List.take b)))
       | some p => some
           (p.1 + (accum_suff_stats_1batch m d (h :: t.take (b - 1)) none
              (sw.map (List.take b))).1,
            vadd p.2 (accum_suff_stats_1batch m d (h :: t.take (b - 1)) none
              (sw.map (List.take b))).2))
termination_by x _ _ => x.length
decreasing_by simp [List.length_drop]; omega

/-- `ExpFamily._accum_suff_stats_nbatches`. -/
def accum_suff_stats_nbatches (m : ExpFamily) (d b : ℕ) (x : List Vec)
    (sw : Option (List ℚ)) : Option (ℚ × Vec) :=
  accum_nbatches_go m d b x sw none

/-- `ExpFamily.accum_suff_stats`: one-batch path when a precomputed `u_x` is
given or `batch_size` is `None`, otherwise the batched path (which can fail
on an empty input). -/
def accum_suff_stats (m : ExpFamily) (d : ℕ) (x : List Vec)
    (ux : Option (List Vec)) (sw : Option (List ℚ)) (bs : Option ℕ) :
    Option (ℚ × Vec) :=
  match ux, bs with
  | some u, _ => some (accum_suff_stats_1batch m d x (some u) sw)
  | none, none => some (accum_suff_stats_1batch m d x none sw)
  | none, some b => accum_suff_stats_nbatches m d b x sw

/-- `ExpFamily.Estep` forwards to `accum_suff_stats`. -/
def Estep (m : ExpFamily) (d : ℕ) (x : List Vec) (ux : Option (List Vec))
    (sw : Option (List ℚ)) (bs : Option ℕ) : Option (ℚ × Vec) :=
  accum_suff_stats m d x ux sw bs

/-- `ExpFamily.Mstep`: abstract in the base class; a concrete subclass
replaces `eta` and `A` from the accumulated statistics. -/
def Mstep (m : ExpFamily) (N : ℚ) (u : Vec) : ExpFamily :=
  { m with eta := (m.mstep N u).1, A := (m.mstep N u).2 }

/-- `ExpFamily.elbo`: `logh + np.inner(u_x, eta) - N*A`, recomputing
`(N, u_x)` (and `logh`) from `x` when they are not supplied. -/
def elbo (m : ExpFamily) (d : ℕ) (x : List Vec) (ux : Option Vec) (N : ℚ)
    (lh : Option ℚ) (sw : Option (List ℚ)) (bs : Option ℕ) : Option ℚ :=
  match (match ux with
         | some u => some (N, u)
         | none => accum_suff_stats m d x none sw bs) with
  | none => none
  | some p => some (lh.getD (accum_logh m x sw) + npInner p.2 m.eta - p.1 * m.A)

/-- The ELBO value `fit` computes internally from precomputed statistics
`(N, u_x)`: `accum_logh(x) + np.inner(u_x, eta) - N*A` (no sample weights are
forwarded to `elbo` inside `fit`). -/
def elbo_at (m : ExpFamily) (x : List Vec) (N : ℚ) (u : Vec) : ℚ :=
  accum_logh m x none + npInner u m.eta - N * m.A

/-- `ExpFamily.fit`: one E-step and one M-step on the training data, then the
ELBO with the post-update parameters; when validation data is given, one more
E-step and ELBO on it with the same post-update parameters.  Returns the
final object state and the list of ELBO values. -/
def fit (m : ExpFamily) (d : ℕ) (x : List Vec) (sw : Option (List ℚ))
    (xval : Option (List Vec)) (swval : Option (List ℚ)) (bs : Option ℕ) :
    Option (ExpFamily × List ℚ) :=
  match Estep m d x none sw bs with
  | none => none
  | some p =>
    match elbo (Mstep m p.1 p.2) d x (some p.2) p.1 none none none with
    | none => none
    | some e =>
      match xval with
      | none => some (Mstep m p.1 p.2, [e, e / p.1])
      | some xv =>
        match Estep (Mstep m p.1 p.2) d xv none swval bs with
        | none => none
        | some q =>
          match elbo (Mstep m p.1 p.2) d xv (some q.2) q.1 none none none with
          | none => none
          | some ev => some (Mstep m p.1 p.2, [e, e / p.1, ev, ev / q.1])

/-- `ExpFamily.eval_llk_nat`: per-sample `logh(x) + np.inner(u_x, eta) - A`,
computing `u_x` from `x` when not supplied. -/
def eval_llk_nat (m : ExpFamily) (x : List Vec) (ux : Option (List Vec)) :
    List ℚ :=
  List.zipWith (fun r u => m.logh r + npInner u m.eta - m.A) x
    (ux.getD (compute_suff_stats m x))

/-- `ExpFamily.eval_llk`: natural-parameter fast path for mode `"nat"`,
the subclass standard-parameter path for every other mode. -/
def eval_llk (m : ExpFamily) (x : List Vec) (ux : Option (List Vec))
    (mode : String) : List ℚ :=
  if mode = "nat" then eval_llk_nat m x ux else m.evalLlkStd x

/-- `ExpFamily.compute_A_nat`: `raise NotImplementedError()` on the base. -/
def compute_A_nat (eta : Vec) : Except String ℚ :=
  Except.error "NotImplementedError"

/-- `ExpFamily.compute_A_std`: `raise NotImplementedError()` on the base. -/
def compute_A_std (params : Vec) : Except String ℚ :=
  Except.error "NotImplementedError"

/-- `ExpFamily.compute_eta`: `raise NotImplementedError()` on the base. -/
def compute_eta (param : Vec) : Except String Vec :=
  Except.error "NotImplementedError"

/-- `ExpFamily.compute_std`: `raise NotImplementedError()` on the base. -/
def compute_std (eta : Vec) : Except String Vec :=
  Except.error "NotImplementedError"

/-- A minimal concrete instance for evaluating the base-class behavior:
base-class hooks (`compute_suff_stats` the identity, `logh ≡ 0`) and a
trivial concrete `Mstep` taking `eta := u_x`, `A := N`. -/
def base : ExpFamily :=
  { eta := [1], A := 0, suffStats := id, logh := fun _ => 0,
    mstep := fun N u => (u, N), evalLlkStd := fun _ => [] }

/-! ### Vector algebra lemmas -/

lemma length_vadd (a b : Vec) : (vadd a b).length = min a.length b.length :=
  List.length_zipWith _ _ _

lemma length_smul (c : ℚ) (v : Vec) : (smul c v).length = v.length :=
  List.length_map _ _

lemma vadd_assoc : ∀ a b c : Vec, vadd (vadd a b) c = vadd a (vadd b c)
  | [], _, _ => rfl
  | _ :: _, [], _ => rfl
  | _ :: _, _ :: _, [] => rfl
  | x :: a, y :: b, z :: c => by
    simp only [vadd, List.zipWith_cons_cons, List.cons.injEq]
    exact ⟨add_assoc x y z, vadd_assoc a b c⟩

lemma vadd_zeros : ∀ (v : Vec) (d : ℕ), v.length = d → vadd v (zeros d) = v
  | [], _, h => by cases h; rfl
  | a :: v, d, h => by
    cases d with
    | zero => simp at h
    | succ d' =>
      simp only [zeros, List.replicate_succ, vadd, List.zipWith_cons_cons,
        add_zero, List.cons.injEq, true_and]
      exact vadd_zeros v d' (by simpa using h)

lemma zeros_vadd : ∀ (v : Vec) (d : ℕ), v.length = d → vadd (zeros d) v = v
  | [], _, h => by cases h; rfl
  | a :: v, d, h => by
    cases d with
    | zero => simp at h
    | succ d' =>
      simp only [zeros, List.replicate_succ, vadd, List.zipWith_cons_cons,
        zero_add, List.cons.injEq, true_and]
      exact zeros_vadd v d' (by simpa using h)

lemma length_foldl_vadd {d : ℕ} :
    ∀ (L : List Vec) (z : Vec), z.length = d → (∀ r ∈ L, r.length = d) →
      (L.foldl vadd z).length = d
  | [], z, hz, _ => hz
  | r :: L, z, hz, hL => by
    simp only [List.foldl_cons]
    exact length_foldl_vadd L (vadd z r)
      (by simp [length_vadd, hz, hL r (by simp)])
      (fun s hs => hL s (by simp [hs]))

lemma length_colSum {d : ℕ} {L : List Vec} (h : ∀ r ∈ L, r.length = d) :
    (colSum d L).length = d :=
  length_foldl_vadd L (zeros d) (by simp [zeros]) h

lemma foldl_vadd_eq {d : ℕ} :
    ∀ (L : List Vec) (z : Vec), z.length = d → (∀ r ∈ L, r.length = d) →
      L.foldl vadd z = vadd z (colSum d L)
  | [], z, hz, _ => by
    simp only [List.foldl_nil, colSum]
    exact (vadd_zeros z d hz).symm
  | r :: L, z, hz, hL => by
    have hr : r.length = d := hL r (by simp)
    have hmem : ∀ s ∈ L, s.length = d := fun s hs => hL s (by simp [hs])
    have h1 : (vadd z r).length = d := by simp [length_vadd, hz, hr]
    have h2 : (vadd (zeros d) r).length = d := by
      simp [length_vadd, hr, zeros]
    calc (r :: L).foldl vadd z
        = L.foldl vadd (vadd z r) := by simp
      _ = vadd (vadd z r) (colSum d L) := foldl_vadd_eq L (vadd z r) h1 hmem
      _ = vadd z (vadd r (colSum d L)) := vadd_assoc _ _ _
      _ = vadd z (vadd (vadd (zeros d) r) (colSum d L)) := by
            rw [zeros_vadd r d hr]
      _ = vadd z (L.foldl vadd (vadd (zeros d) r)) := by
            rw [foldl_vadd_eq L (vadd (zeros d) r) h2 hmem]
      _ = vadd z (colSum d (r :: L)) := by simp [colSum]

lemma colSum_append {d : ℕ} (A B : List Vec)
    (hA : ∀ r ∈ A, r.length = d) (hB : ∀ r ∈ B, r.length = d) :
    colSum d (A ++ B) = vadd (colSum d A) (colSum d B) := by
  have : colSum d (A ++ B) = B.foldl vadd (colSum d A) := by
    simp [colSum, List.foldl_append]
  rw [this, foldl_vadd_eq B (colSum d A) (length_colSum hA) hB]

lemma scaleRows_mem_length {d : ℕ} :
    ∀ (w : List ℚ) (L : List Vec), (∀ r ∈ L, r.length = d) →
      ∀ y ∈ scaleRows w L, y.length = d
  | [], _, _, y, hy => by simp [scaleRows] at hy
  | _ :: _, [], _, y, hy => by simp [scaleRows] at hy
  | c :: w, r :: L, hL, y, hy => by
    simp only [scaleRows, List.zipWith_cons_cons, List.mem_cons] at hy
    rcases hy with rfl | hy
    · simp [length_smul, hL r (by simp)]
    · exact scaleRows_mem_length w L (fun s hs => hL s (by simp [hs])) y hy

lemma zeros_getD (d j : ℕ) : (zeros d).getD j 0 = 0 := by
  induction d generalizing j with
  | zero => simp [zeros]
  | succ d ih =>
    cases j with
    | zero => simp [zeros]
    | succ j =>
      simpa [zeros, List.replicate_succ] using ih j

lemma vadd_getD : ∀ (a b : Vec) (j : ℕ), j < a.length → j < b.length →
    (vadd a b).getD j 0 = a.getD j 0 + b.getD j 0
  | [], _, j, hj, _ => by simp at hj
  | _ :: _, [], j, _, hj => by simp at hj
  | x :: a, y :: b, 0, _, _ => by simp [vadd]
  | x :: a, y :: b, j + 1, hja, hjb => by
    simp only [vadd, List.zipWith_cons_cons, List.getD_cons_succ]
    exact vadd_getD a b j (by simpa using hja) (by simpa using hjb)

lemma smul_getD (c : ℚ) : ∀ (v : Vec) (j : ℕ), j < v.length →
    (smul c v).getD j 0 = c * v.getD j 0
  | [], j, hj => by simp at hj
  | a :: v, 0, _ => by simp [smul]
  | a :: v, j + 1, hj => by
    simp only [smul, List.map_cons, List.getD_cons_succ]
    exact smul_getD c v j (by simpa using hj)

lemma foldl_vadd_getD {d j : ℕ} (hj : j < d) :
    ∀ (L : List Vec) (z : Vec), z.length = d → (∀ r ∈ L, r.length = d) →
      (L.foldl vadd z).getD j 0 = z.getD j 0 + (L.map (fun r => r.getD j 0)).sum
  | [], z, _, _ => by simp
  | r :: L, z, hz, hL => by
    have hr : r.length = d := hL r (by simp)
    have h1 : (vadd z r).length = d := by simp [length_vadd, hz, hr]
    simp only [List.foldl_cons, List.map_cons, List.sum_cons]
    rw [foldl_vadd_getD hj L (vadd z r) h1 (fun s hs => hL s (by simp [hs])),
      vadd_getD z r j (hz ▸ hj) (hr ▸ hj), add_assoc]

lemma colSum_getD {d j : ℕ} (hj : j < d) (L : List Vec)
    (h : ∀ r ∈ L, r.length = d) :
    (colSum d L).getD j 0 = (L.map (fun r => r.getD j 0)).sum := by
  rw [colSum, foldl_vadd_getD hj L (zeros d) (by simp [zeros]) h, zeros_getD,
    zero_add]

lemma scaleRows_map_getD {d j : ℕ} (hj : j < d) :
    ∀ (w : List ℚ) (L : List Vec), (∀ r ∈ L, r.length = d) →
      (scaleRows w L).map (fun v => v.getD j 0) =
        List.zipWith (fun c r => c * r.getD j 0) w L
  | [], L, _ => by simp [scaleRows]
  | _ :: _, [], _ => by simp [scaleRows]
  | c :: w, r :: L, hL => by
    simp only [scaleRows, List.zipWith_cons_cons, List.map_cons,
      List.cons.injEq]
    exact ⟨smul_getD c r j ((hL r (by simp)) ▸ hj),
      scaleRows_map_getD hj w L (fun s hs => hL s (by simp [hs]))⟩

/-! ### Accumulation lemmas -/

lemma accum1_snd_length {m : ExpFamily} {d : ℕ} {x : List Vec}
    {sw : Option (List ℚ)} (hlen : ∀ r ∈ x, (m.suffStats r).length = d) :
    (accum_suff_stats_1batch m d x none sw).2.length = d := by
  have hrows : ∀ r ∈ compute_suff_stats m x, r.length = d := by
    intro r hr
    rcases List.mem_map.mp hr with ⟨s, hs, rfl⟩
    exact hlen s hs
  cases sw with
  | none => exact length_colSum hrows
  | some w =>
    exact length_colSum (scaleRows_mem_length w _ hrows)

/-- Splitting `_accum_suff_stats_1batch` at the first chunk boundary: on a
nonempty input with aligned weights, the one-pass accumulation equals the
componentwise sum of the accumulations of the first `b'+1` rows and of the
remaining rows. -/
lemma accum1_cons_split (m : ExpFamily) (d b' : ℕ) (h : Vec) (t : List Vec)
    (sw : Option (List ℚ))
    (hlen : ∀ r ∈ h :: t, (m.suffStats r).length = d)
    (hsw : ∀ w, sw = some w → w.length = (h :: t).length) :
    accum_suff_stats_1batch m d (h :: t) none sw =
      ((accum_suff_stats_1batch m d (h :: t.take b') none
          (sw.map (List.take (b'+1)))).1 +
        (accum_suff_stats_1batch m d (t.drop b') none
          (sw.map (List.drop (b'+1)))).1,
       vadd
        (accum_suff_stats_1batch m d (h :: t.take b') none
          (sw.map (List.take (b'+1)))).2
        (accum_suff_stats_1batch m d (t.drop b') none
          (sw.map (List.drop (b'+1)))).2) := by
  have hsub1 : (h :: t.take b') ⊆ h :: t := by
    intro a ha
    rcases List.mem_cons.mp ha with rfl | ha
    · exact List.mem_cons_self _ _
    · exact List.mem_cons_of_mem _ (List.take_subset _ _ ha)
  have hsub2 : t.drop b' ⊆ h :: t :=
    fun a ha => List.mem_cons_of_mem _ (List.drop_subset _ _ ha)
  have hrows : ∀ (ys : List Vec), ys ⊆ h :: t →
      ∀ r ∈ compute_suff_stats m ys, r.length = d := by
    intro ys hys r hr
    rcases List.mem_map.mp hr with ⟨s, hs, rfl⟩
    exact hlen s (hys hs)
  have hsplit : (h :: t.take b') ++ t.drop b' = h :: t := by
    simp [List.take_append_drop]
  have hmap : compute_suff_stats m (h :: t) =
      compute_suff_stats m (h :: t.take b') ++
        compute_suff_stats m (t.drop b') := by
    simp only [compute_suff_stats, ← List.map_append, hsplit]
  cases sw with
  | none =>
    simp only [accum_suff_stats_1batch, Option.map_none', Option.getD_none,
      Prod.mk.injEq]
    constructor
    · rw [hmap, List.length_append]
      push_cast
      ring
    · rw [hmap,
        colSum_append _ _ (hrows _ hsub1) (hrows _ hsub2)]
  | some w =>
    have hw : w.length = t.length + 1 := by simpa using hsw w rfl
    have hlen1 : (w.take (b'+1)).length =
        (compute_suff_stats m (h :: t.take b')).length := by
      simp only [compute_suff_stats, List.length_map, List.length_take,
        List.length_cons]
      omega
    have hzip : scaleRows w (compute_suff_stats m (h :: t)) =
        scaleRows (w.take (b'+1)) (compute_suff_stats m (h :: t.take b')) ++
          scaleRows (w.drop (b'+1)) (compute_suff_stats m (t.drop b')) := by
      conv_lhs => rw [← List.take_append_drop (b'+1) w, hmap]
      exact List.zipWith_append _ _ _ _ _ hlen1
    simp only [accum_suff_stats_1batch, Option.map_some', Option.getD_some,
      Option.getD_none, Prod.mk.injEq]
    constructor
    · conv_lhs => rw [← List.take_append_drop (b'+1) w]
      rw [List.sum_append]
    · rw [hzip, colSum_append _ _
        (scaleRows_mem_length _ _ (hrows _ hsub1))
        (scaleRows_mem_length _ _ (hrows _ hsub2))]

/-- `_accum_suff_stats_1batch` on an empty input (with aligned, hence empty,
weights): zero count and the zero vector (`np.sum` over the empty axis). -/
lemma accum1_nil (m : ExpFamily) (d : ℕ) (sw : Option (List ℚ))
    (hsw : ∀ w, sw = some w → w.length = 0) :
    accum_suff_stats_1batch m d [] none sw = (0, zeros d) := by
  cases sw with
  | none =>
    simp [accum_suff_stats_1batch, compute_suff_stats, colSum]
  | some w =>
    have hw : w = [] := List.eq_nil_of_length_eq_zero (hsw w rfl)
    subst hw
    simp [accum_suff_stats_1batch, compute_suff_stats, scaleRows, colSum]

/-- Invariant of the batched loop: once the accumulator is initialized, the
loop adds exactly the one-pass accumulation of the remaining rows. -/
lemma accum_nbatches_go_some (m : ExpFamily) (d b' : ℕ) :
    ∀ (n : ℕ) (x : List Vec) (sw : Option (List ℚ)) (N0 : ℚ) (u0 : Vec),
      x.length ≤ n →
      (∀ r ∈ x, (m.suffStats r).length = d) →
      u0.length = d →
      (∀ w, sw = some w → w.length = x.length) →
      accum_nbatches_go m d (b'+1) x sw (some (N0, u0)) =
        some (N0 + (accum_suff_stats_1batch m d x none sw).1,
              vadd u0 (accum_suff_stats_1batch m d x none sw).2) := by
  intro n
  induction n with
  | zero =>
    intro x sw N0 u0 hn hlen hu0 hsw
    have hx : x = [] := List.eq_nil_of_length_eq_zero (Nat.le_zero.mp hn)
    subst hx
    rw [accum1_nil m d sw (by simpa using hsw)]
    simp only [accum_nbatches_go, add_zero]
    rw [vadd_zeros u0 d hu0]
  | succ n ih =>
    intro x sw N0 u0 hn hlen hu0 hsw
    cases x with
    | nil =>
      rw [accum1_nil m d sw (by simpa using hsw)]
      simp only [accum_nbatches_go, add_zero]
      rw [vadd_zeros u0 d hu0]
    | cons h t =>
      rw [accum_nbatches_go]
      simp only [Nat.add_sub_cancel]
      rw [ih (t.drop b') (sw.map (List.drop (b'+1)))
        (N0 + (accum_suff_stats_1batch m d (h :: t.take b') none
          (sw.map (List.take (b'+1)))).1)
        (vadd u0 (accum_suff_stats_1batch m d (h :: t.take b') none
          (sw.map (List.take (b'+1)))).2)
        (by
          have hn' : t.length + 1 ≤ n + 1 := by simpa using hn
          simp only [List.length_drop]
          omega)
        (fun r hr => hlen r (List.mem_cons_of_mem _ (List.drop_subset _ _ hr)))
        (by
          rw [length_vadd, hu0, accum1_snd_length (fun r hr => hlen r
            (by
              rcases List.mem_cons.mp hr with rfl | hr
              · exact List.mem_cons_self _ _
              · exact List.mem_cons_of_mem _ (List.take_subset _ _ hr)))]
          simp)
        (by
          intro w' hw'
          cases sw with
          | none => simp at hw'
          | some w =>
            have hw : w.length = t.length + 1 := by simpa using hsw w rfl
            simp only [Option.map_some', Option.some.injEq] at hw'
            subst hw'
            simp [List.length_drop, hw])]
      rw [accum1_cons_split m d b' h t sw hlen hsw]
      simp only [add_assoc, vadd_assoc]

/-! ### Claim theorems -/

/-- C1 (amended to nonempty inputs): for every nonempty embedding matrix,
every aligned optional sample-weight vector and every batch size `b ≥ 1`,
the batched E-step — which walks the rows in contiguous chunks of at most
`b`, accumulates each chunk independently and sums the partials — returns
exactly the same `(N, u_x)` pair as the unbatched E-step (exact arithmetic
standing in for floating point). -/
theorem Estep_batched_eq_unbatched (m : ExpFamily) (d b : ℕ) (x : List Vec)
    (sw : Option (List ℚ)) (hb : 1 ≤ b) (hx : x ≠ [])
    (hlen : ∀ r ∈ x, (m.suffStats r).length = d)
    (hsw : ∀ w, sw = some w → w.length = x.length) :
    Estep m d x none sw (some b) = Estep m d x none sw none := by
  obtain ⟨b', rfl⟩ : ∃ b', b = b' + 1 := ⟨b - 1, by omega⟩
  cases x with
  | nil => exact absurd rfl hx
  | cons h t =>
    show accum_suff_stats_nbatches m d (b'+1) (h :: t) sw =
      some (accum_suff_stats_1batch m d (h :: t) none sw)
    rw [accum_suff_stats_nbatches, accum_nbatches_go]
    simp only [Nat.add_sub_cancel]
    rw [accum_nbatches_go_some m d b' (t.drop b').length (t.drop b')
      (sw.map (List.drop (b'+1)))
      (accum_suff_stats_1batch m d (h :: t.take b') none
        (sw.map (List.take (b'+1)))).1
      (accum_suff_stats_1batch m d (h :: t.take b') none
        (sw.map (List.take (b'+1)))).2
      le_rfl
      (fun r hr => hlen r (List.mem_cons_of_mem _ (List.drop_subset _ _ hr)))
      (accum1_snd_length (fun r hr => hlen r
        (by
          rcases List.mem_cons.mp hr with rfl | hr
          · exact List.mem_cons_self _ _
          · exact List.mem_cons_of_mem _ (List.take_subset _ _ hr))))
      (by
        intro w' hw'
        cases sw with
        | none => simp at hw'
        | some w =>
          have hw : w.length = t.length + 1 := by simpa using hsw w rfl
          simp only [Option.map_some', Option.some.injEq] at hw'
          subst hw'
          simp [List.length_drop, hw])]
    rw [accum1_cons_split m d b' h t sw hlen hsw]

/-- Witness for C1's theorem: three rows, weights `[1, 2, 1]`, batch size 2
against the unbatched path, on the base-class identity statistics. -/
theorem Estep_batched_eq_unbatched_witness :
    Estep base 1 [[1], [2], [3]] none (some [1, 2, 1]) (some 2) =
      Estep base 1 [[1], [2], [3]] none (some [1, 2, 1]) none :=
  Estep_batched_eq_unbatched base 1 2 [[1], [2], [3]] (some [1, 2, 1])
    (by decide) (by decide) (by decide)
    (fun w hw => by cases hw; decide)

/-- C1 counterexample to the universal claim: on the zero-row matrix the
batched path fails (`none`, the unbound-local error) while the unbatched
path returns a value, so the two paths do not agree on every matrix. -/
theorem Estep_batched_empty_cex :
    Estep base 1 [] none none (some 1) ≠ Estep base 1 [] none none none := by
  have h1 : Estep base 1 [] none none (some 1) = none := by
    show accum_suff_stats_nbatches base 1 1 [] none = none
    rw [accum_suff_stats_nbatches, accum_nbatches_go]
  have h2 : Estep base 1 [] none none none = some ((0 : ℚ), zeros 1) := by
    show some (accum_suff_stats_1batch base 1 [] none none) = _
    rw [accum1_nil base 1 none (fun w hw => by cases hw)]
  rw [h1, h2]
  simp

/-- C10: on an input with zero rows the unbatched E-step returns `N = 0` with
the zero sufficient-statistic vector, while the batched path for any batch
size returns `none` — the model of the `UnboundLocalError` raised because the
loop of `_accum_suff_stats_nbatches` never initializes `N` and `u_x`. -/
theorem Estep_empty_disagreement (m : ExpFamily) (d b : ℕ)
    (sw : Option (List ℚ)) :
    Estep m d [] none none none = some ((0 : ℚ), zeros d) ∧
      Estep m d [] none sw (some b) = none := by
  constructor
  · show some (accum_suff_stats_1batch m d [] none none) = _
    rw [accum1_nil m d none (fun w hw => by cases hw)]
  · show accum_suff_stats_nbatches m d b [] sw = none
    rw [accum_suff_stats_nbatches, accum_nbatches_go]

/-- C2 at the failing input: with sample weights, `_accum_suff_stats_1batch`
scales the statistics buffer in place (`u_x *= sample_weights[:, None]`);
under the base-class identity `compute_suff_stats` that buffer is the
caller's `x`, so `x = [[1]]` with weights `[2]` is left holding `[[2]]`.
Without sample weights the buffer is untouched. -/
theorem accum1_buffer_mutated :
    accum1_buffer_after [[1]] (some [2]) = [[2]] ∧
      ∀ u : List Vec, accum1_buffer_after u none = u := by
  constructor
  · show scaleRows [2] [[1]] = [[2]]
    norm_num [scaleRows, smul]
  · intro u
    rfl

lemma zipWith_self_eq_map {α β : Type _} (f : α → α → β) :
    ∀ l : List α, List.zipWith f l l = l.map (fun a => f a a)
  | [] => rfl
  | a :: l => by
    simp only [List.zipWith_cons_cons, List.map_cons, List.cons.injEq,
      true_and]
    exact zipWith_self_eq_map f l

/-- C7: without sample weights the E-step returns `N` = the number of rows
and `u_x` = the column-wise sum of the per-sample sufficient statistics
(identity in the base class); with a weight vector `w` it returns `N = Σᵢ wᵢ`
and the weighted sums `uₓ[j] = Σᵢ wᵢ · u(xᵢ)[j]`. -/
theorem Estep_counts_and_sums (m : ExpFamily) (d : ℕ) (x : List Vec)
    (w : List ℚ) (hlen : ∀ r ∈ x, (m.suffStats r).length = d)
    (hw : w.length = x.length) :
    (∃ u, Estep m d x none none none = some ((x.length : ℚ), u) ∧
      ∀ j, j < d →
        u.getD j 0 = (x.map (fun r => (m.suffStats r).getD j 0)).sum) ∧
    (∃ u, Estep m d x none (some w) none = some (w.sum, u) ∧
      ∀ j, j < d → u.getD j 0 =
        (List.zipWith (fun c r => c * (m.suffStats r).getD j 0) w x).sum) := by
  have hrows : ∀ r ∈ compute_suff_stats m x, r.length = d := by
    intro r hr
    rcases List.mem_map.mp hr with ⟨s, hs, rfl⟩
    exact hlen s hs
  constructor
  · refine ⟨colSum d (compute_suff_stats m x), ?_, ?_⟩
    · show some (accum_suff_stats_1batch m d x none none) = _
      simp only [accum_suff_stats_1batch, Option.getD_none,
        compute_suff_stats, List.length_map]
    · intro j hj
      rw [colSum_getD hj _ hrows]
      simp only [compute_suff_stats, List.map_map]
      rfl
  · refine ⟨colSum d (scaleRows w (compute_suff_stats m x)), ?_, ?_⟩
    · show some (accum_suff_stats_1batch m d x none (some w)) = _
      simp only [accum_suff_stats_1batch, Option.getD_none]
    · intro j hj
      rw [colSum_getD hj _ (scaleRows_mem_length _ _ hrows),
        scaleRows_map_getD hj w _ hrows, compute_suff_stats,
        List.zipWith_map_right]

/-- Witness for C7's theorem: two rows `[[2], [3]]` with weights `[5, 7]` on
the base-class identity statistics. -/
theorem Estep_counts_and_sums_witness :
    (∃ u, Estep base 1 [[2], [3]] none none none =
        some ((([[2], [3]] : List Vec).length : ℚ), u) ∧
      ∀ j, j < 1 → u.getD j 0 =
        (([[2], [3]] : List Vec).map
          (fun r => (base.suffStats r).getD j 0)).sum) ∧
    (∃ u, Estep base 1 [[2], [3]] none (some [5, 7]) none =
        some (([5, 7] : List ℚ).sum, u) ∧
      ∀ j, j < 1 → u.getD j 0 =
        (List.zipWith (fun c r => c * (base.suffStats r).getD j 0)
          [5, 7] [[2], [3]]).sum) :=
  Estep_counts_and_sums base 1 [[2], [3]] [5, 7] (by decide) (by decide)

/-- C5: with `u_x` unsupplied, `elbo` equals
`accum_logh(x, w) + ⟨u_x_acc, eta⟩ − N·A` for the accumulated statistics
`(N, u_x_acc)`; with precomputed `u_x`, `N` and `logh` it is exactly
`logh + ⟨u_x, eta⟩ − N·A`. -/
theorem elbo_formula (m : ExpFamily) (d : ℕ) (x : List Vec)
    (sw : Option (List ℚ)) (bs : Option ℕ) (N0 N lh : ℚ) (u : Vec)
    (h : accum_suff_stats m d x none sw bs = some (N, u)) :
    elbo m d x none N0 none sw bs =
      some (accum_logh m x sw + npInner u m.eta - N * m.A) ∧
    elbo m d x (some u) N (some lh) sw bs =
      some (lh + npInner u m.eta - N * m.A) := by
  constructor
  · simp only [elbo, h, Option.getD_none]
  · simp only [elbo, Option.getD_some]

/-- Witness for C5's theorem: `x = [[1], [2]]`, no weights, no batching,
whose accumulated statistics are `(2, [3])`. -/
theorem elbo_formula_witness :
    elbo base 1 [[1], [2]] none 7 none none none =
      some (accum_logh base [[1], [2]] none + npInner [3] base.eta -
        2 * base.A) ∧
    elbo base 1 [[1], [2]] (some [3]) 2 (some 5) none none =
      some (5 + npInner [3] base.eta - 2 * base.A) :=
  elbo_formula base 1 [[1], [2]] none none 7 2 5 [3]
    (by norm_num [accum_suff_stats, accum_suff_stats_1batch,
      compute_suff_stats, base, colSum, vadd, zeros])

lemma elbo_precomputed (m : ExpFamily) (d : ℕ) (y : List Vec) (Ny : ℚ)
    (uy : Vec) :
    elbo m d y (some uy) Ny none none none =
      some (elbo_at m y Ny uy) := by
  simp [elbo, elbo_at]

/-- C3: each `fit` call performs exactly one E-step and one M-step, never
fails once its E-steps return, and yields `[elbo, elbo/N]` computed with the
post-M-step parameters on the training statistics, extended by
`[elbo_val, elbo_val/N_val]` when validation data is supplied. -/
theorem fit_one_em_iteration (m : ExpFamily) (d : ℕ) (x : List Vec)
    (sw swv : Option (List ℚ)) (bs : Option ℕ) (N : ℚ) (u : Vec)
    (h : Estep m d x none sw bs = some (N, u)) :
    fit m d x sw none swv bs =
      some (Mstep m N u,
        [elbo_at (Mstep m N u) x N u, elbo_at (Mstep m N u) x N u / N]) ∧
    ∀ xv Nv uv, Estep (Mstep m N u) d xv none swv bs = some (Nv, uv) →
      fit m d x sw (some xv) swv bs =
        some (Mstep m N u,
          [elbo_at (Mstep m N u) x N u, elbo_at (Mstep m N u) x N u / N,
           elbo_at (Mstep m N u) xv Nv uv,
           elbo_at (Mstep m N u) xv Nv uv / Nv]) := by
  constructor
  · simp only [fit, h, elbo_precomputed]
  · intro xv Nv uv hv
    simp only [fit, h, hv, elbo_precomputed]

/-- Witness for C3's theorem: training data `[[1], [2]]` with statistics
`(2, [3])` on the concrete base instance. -/
theorem fit_one_em_iteration_witness :
    fit base 1 [[1], [2]] none none none none =
      some (Mstep base 2 [3],
        [elbo_at (Mstep base 2 [3]) [[1], [2]] 2 [3],
         elbo_at (Mstep base 2 [3]) [[1], [2]] 2 [3] / 2]) ∧
    ∀ xv Nv uv,
      Estep (Mstep base 2 [3]) 1 xv none none none = some (Nv, uv) →
      fit base 1 [[1], [2]] none (some xv) none none =
        some (Mstep base 2 [3],
          [elbo_at (Mstep base 2 [3]) [[1], [2]] 2 [3],
           elbo_at (Mstep base 2 [3]) [[1], [2]] 2 [3] / 2,
           elbo_at (Mstep base 2 [3]) xv Nv uv,
           elbo_at (Mstep base 2 [3]) xv Nv uv / Nv]) :=
  fit_one_em_iteration base 1 [[1], [2]] none none none 2 [3]
    (by norm_num [Estep, accum_suff_stats, accum_suff_stats_1batch,
      compute_suff_stats, base, colSum, vadd, zeros])

/-- C4: with validation data, the state `fit` returns is exactly the
post-M-step state from the training statistics — computing the validation
ELBO alters neither `eta` nor `A` — and the appended validation entries are
the ELBO of the validation statistics under those same parameters. -/
theorem fit_val_post_mstep (m : ExpFamily) (d : ℕ) (x xv : List Vec)
    (sw swv : Option (List ℚ)) (bs : Option ℕ) (N : ℚ) (u : Vec)
    (p : ExpFamily) (l : List ℚ)
    (h : Estep m d x none sw bs = some (N, u))
    (hfit : fit m d x sw (some xv) swv bs = some (p, l)) :
    p = Mstep m N u ∧
    ∃ Nv uv, Estep (Mstep m N u) d xv none swv bs = some (Nv, uv) ∧
      l = [elbo_at (Mstep m N u) x N u, elbo_at (Mstep m N u) x N u / N,
           elbo_at (Mstep m N u) xv Nv uv,
           elbo_at (Mstep m N u) xv Nv uv / Nv] := by
  cases hv : Estep (Mstep m N u) d xv none swv bs with
  | none =>
    simp only [fit, h, hv, elbo_precomputed] at hfit
    exact absurd hfit (by simp)
  | some q =>
    simp only [fit, h, hv, elbo_precomputed, Option.some.injEq,
      Prod.mk.injEq] at hfit
    obtain ⟨hp, hl⟩ := hfit
    exact ⟨hp.symm, q.1, q.2, by simp [hv], hl.symm⟩

/-- Witness for C4's theorem: training data `[[1], [2]]`, validation data
`[[4]]`, on the concrete base instance. -/
theorem fit_val_post_mstep_witness :
    Mstep base 2 [3] = Mstep base 2 [3] ∧
    ∃ Nv uv, Estep (Mstep base 2 [3]) 1 [[4]] none none none =
        some (Nv, uv) ∧
      ([(5 : ℚ), 5/2, 10, 10] =
        [elbo_at (Mstep base 2 [3]) [[1], [2]] 2 [3],
         elbo_at (Mstep base 2 [3]) [[1], [2]] 2 [3] / 2,
         elbo_at (Mstep base 2 [3]) [[4]] Nv uv,
         elbo_at (Mstep base 2 [3]) [[4]] Nv uv / Nv]) :=
  fit_val_post_mstep base 1 [[1], [2]] [[4]] none none none 2 [3]
    (Mstep base 2 [3]) [5, 5/2, 10, 10]
    (by norm_num [Estep, accum_suff_stats, accum_suff_stats_1batch,
      compute_suff_stats, base, colSum, vadd, zeros])
    (by norm_num [fit, Estep, accum_suff_stats, accum_suff_stats_1batch,
      compute_suff_stats, base, colSum, vadd, zeros, Mstep, elbo, elbo_at,
      accum_logh, npInner])

/-- C6: `eval_llk` in mode `"nat"` returns the per-sample vector
`logh(x) + ⟨u(x), eta⟩ − A` (substituting a precomputed `u_x` when given);
every other mode dispatches to the subclass standard-parameter path. -/
theorem eval_llk_dispatch (m : ExpFamily) (x u : List Vec) (mode : String)
    (hmode : mode ≠ "nat") :
    eval_llk m x none "nat" =
      x.map (fun r => m.logh r + npInner (m.suffStats r) m.eta - m.A) ∧
    eval_llk m x (some u) "nat" =
      List.zipWith (fun r v => m.logh r + npInner v m.eta - m.A) x u ∧
    eval_llk m x none mode = m.evalLlkStd x ∧
    eval_llk m x (some u) mode = m.evalLlkStd x := by
  refine ⟨?_, by simp [eval_llk, eval_llk_nat], by simp [eval_llk, hmode],
    by simp [eval_llk, hmode]⟩
  simp only [eval_llk, if_pos, eval_llk_nat, Option.getD_none,
    compute_suff_stats]
  rw [List.zipWith_map_right, zipWith_self_eq_map]

/-- Witness for C6's theorem: `x = [[1]]`, precomputed `u = [[2]]`, plus the
non-natural mode `"std"` hitting the subclass path. -/
theorem eval_llk_dispatch_witness :
    eval_llk base [[1]] none "nat" =
      ([[1]] : List Vec).map
        (fun r => base.logh r + npInner (base.suffStats r) base.eta -
          base.A) ∧
    eval_llk base [[1]] (some [[2]]) "nat" =
      List.zipWith (fun r v => base.logh r + npInner v base.eta - base.A)
        [[1]] [[2]] ∧
    eval_llk base [[1]] none "std" = base.evalLlkStd [[1]] ∧
    eval_llk base [[1]] (some [[2]]) "std" = base.evalLlkStd [[1]] :=
  eval_llk_dispatch base [[1]] [[2]] "std" (by decide)

/-- C9: the four static parameter-conversion methods raise
`NotImplementedError` on every input on the `ExpFamily` base class and never
produce a value. -/
theorem compute_conversions_raise (eta params param : Vec) :
    compute_A_nat eta = Except.error "NotImplementedError" ∧
    compute_A_std params = Except.error "NotImplementedError" ∧
    compute_eta param = Except.error "NotImplementedError" ∧
    compute_std eta = Except.error "NotImplementedError" ∧
    (compute_A_nat eta).toOption = none ∧
    (compute_A_std params).toOption = none ∧
    (compute_eta param).toOption = none ∧
    (compute_std eta).toOption = none :=
  ⟨rfl, rfl, rfl, rfl, rfl, rfl, rfl, rfl⟩

/-! ### The PLDA S-Norm scoring script (`eval-be-plda-snorm-v1.py`) -/

/-- Modelled from the spec: `np.unique(enroll)` — unique-value extraction
(the sorted, deduplicated enrollment identities); `numpy` itself is outside
this repository. -/
def uniqueSorted {α : Type} [LinearOrder α] (l : List α) : List α :=
  (l.insertionSort (· ≤ ·)).dedup

/-- Modelled from the spec: the stable inverse index `ids_e` returned by
`np.unique(enroll, return_inverse=True)` — for each original identity, its
position inside the deduplicated list, so that
`unique[ids_e[i]] = enroll[i]`. -/
def uniqueInverse {α : Type} [LinearOrder α] (l : List α) : List ℕ :=
  l.map fun a => (uniqueSorted l).indexOf a

/-- The collaborators of the scoring script that live outside this file: the
PLDA model's `llr_Nvs1(x_e, x_t, method, ids1)` and `llr_1vs1(x1, x2)`, and
`AdaptSNorm.predict(scores, scores_coh_test, scores_enr_coh)`; kept
abstract, since the script only orchestrates them. -/
structure ScoringBackend where
  llr_Nvs1 : List Vec → List Vec → String → List ℕ → List (List ℚ)
  llr_1vs1 : List Vec → List Vec → List (List ℚ)
  snorm_predict : List (List ℚ) → List (List ℚ) → List (List ℚ) →
    List (List ℚ)

/-- `eval_plda` of `eval-be-plda-snorm-v1.py`: deduplicate the enrollment
identities with a stable inverse index, score the main trial
(`llr_Nvs1(x_e, x_t)`), the cohort-vs-test matrix (`llr_1vs1(x_coh, x_t)`)
and the enroll-vs-cohort matrix (`llr_Nvs1(x_e, x_coh)`), apply S-Norm, and
return what is serialized: the deduplicated model ids with the normalized
score matrix. -/
def eval_plda {α : Type} [LinearOrder α] (be : ScoringBackend)
    (pool_method : String) (x_e x_t x_coh : List Vec) (enroll : List α) :
    List α × List (List ℚ) :=
  (uniqueSorted enroll,
   be.snorm_predict
     (be.llr_Nvs1 x_e x_t pool_method (uniqueInverse enroll))
     (be.llr_1vs1 x_coh x_t)
     (be.llr_Nvs1 x_e x_coh pool_method (uniqueInverse enroll)))

/-- C8: the serialized score matrix is exactly
`SNorm.predict(llr_Nvs1(x_e, x_t), llr_1vs1(x_coh, x_t),
llr_Nvs1(x_e, x_coh))` over the deduplicated enrollment groups — the raw
scores are not saved — and the deduplication produces duplicate-free
identities covering exactly the original ones, with a stable inverse index:
`unique[ids_e[i]] = enroll[i]` for every position `i`. -/
theorem eval_plda_pipeline {α : Type} [LinearOrder α] (be : ScoringBackend)
    (pool_method : String) (x_e x_t x_coh : List Vec) (enroll : List α) :
    (eval_plda be pool_method x_e x_t x_coh enroll).2 =
      be.snorm_predict
        (be.llr_Nvs1 x_e x_t pool_method (uniqueInverse enroll))
        (be.llr_1vs1 x_coh x_t)
        (be.llr_Nvs1 x_e x_coh pool_method (uniqueInverse enroll)) ∧
    (eval_plda be pool_method x_e x_t x_coh enroll).1 =
      uniqueSorted enroll ∧
    (uniqueSorted enroll).Nodup ∧
    enroll.toFinset = (uniqueSorted enroll).toFinset ∧
    ((uniqueInverse enroll).map
      fun j => (uniqueSorted enroll)[j]?) = enroll.map some := by
  have hmem : ∀ a : α, a ∈ uniqueSorted enroll ↔ a ∈ enroll := by
    intro a
    rw [uniqueSorted, List.mem_dedup]
    exact (List.perm_insertionSort (· ≤ ·) enroll).mem_iff
  refine ⟨rfl, rfl, List.nodup_dedup _, ?_, ?_⟩
  · ext a
    simp only [List.mem_toFinset]
    exact (hmem a).symm
  · rw [uniqueInverse, List.map_map]
    refine List.map_congr_left ?_
    intro a ha
    exact List.getElem?_indexOf ((hmem a).mpr ha)

/-- Witness for C8's theorem: a concrete backend and the enrollment list
`[3, 1, 3, 2]` with repeated identities. -/
theorem eval_plda_pipeline_witness :
    (eval_plda ⟨fun _ _ _ ids => [[(ids.length : ℚ)]], fun _ _ => [[2]],
        fun a b c => a ++ b ++ c⟩ "vavg" [] [] [] [3, 1, 3, 2]).2 =
      ScoringBackend.snorm_predict
        ⟨fun _ _ _ ids => [[(ids.length : ℚ)]], fun _ _ => [[2]],
          fun a b c => a ++ b ++ c⟩
        (ScoringBackend.llr_Nvs1
          ⟨fun _ _ _ ids => [[(ids.length : ℚ)]], fun _ _ => [[2]],
            fun a b c => a ++ b ++ c⟩ [] [] "vavg"
          (uniqueInverse [3, 1, 3, 2]))
        (ScoringBackend.llr_1vs1
          ⟨fun _ _ _ ids => [[(ids.length : ℚ)]], fun _ _ => [[2]],
            fun a b c => a ++ b ++ c⟩ [] [])
        (ScoringBackend.llr_Nvs1
          ⟨fun _ _ _ ids => [[(ids.length : ℚ)]], fun _ _ => [[2]],
            fun a b c => a ++ b ++ c⟩ [] [] "vavg"
          (uniqueInverse [3, 1, 3, 2])) ∧
    (eval_plda ⟨fun _ _ _ ids => [[(ids.length : ℚ)]], fun _ _ => [[2]],
        fun a b c => a ++ b ++ c⟩ "vavg" [] [] [] [3, 1, 3, 2]).1 =
      uniqueSorted [3, 1, 3, 2] ∧
    (uniqueSorted [3, 1, 3, 2]).Nodup ∧
    ([3, 1, 3, 2] : List ℕ).toFinset = (uniqueSorted [3, 1, 3, 2]).toFinset ∧
    ((uniqueInverse [3, 1, 3, 2]).map
      fun j => (uniqueSorted [3, 1, 3, 2])[j]?) =
      ([3, 1, 3, 2] : List ℕ).map some :=
  eval_plda_pipeline
    ⟨fun _ _ _ ids => [[(ids.length : ℚ)]], fun _ _ => [[2]],
      fun a b c => a ++ b ++ c⟩ "vavg" [] [] [] [3, 1, 3, 2]

end Hyperion
